import Mathlib

/-
Verification development for the tfs-unbind repository.

The repository (src/tfs/libs.py and src/tfs/unbinder.py) copies a project
tree and strips TFS source-control bindings from it.  This file gives a
shallow embedding of the pieces the specification talks about:

  * the two line filters of _update_sln and _update_proj (unbinder.py),
  * the tree walk and classification of _collect (unbinder.py),
  * the deletion of _delete and the whole unbind pipeline (unbinder.py),
  * the open_inout and chdir context managers (libs.py),

and proves or refutes the specification's claims about them.

Python strings are modelled on lists of characters (String.data), because
the primitive operations str.strip / startswith / endswith / substring
containment are re-implemented here as executable list functions.
-/

/-! ### Python string primitives -/

/-- The whitespace characters removed by Python str.strip() with no
arguments (ASCII part, which is all the repository's inputs use). -/
def isSpaceC (c : Char) : Bool :=
  c == ' ' || c == '\t' || c == '\n' || c == '\r' || c == '\x0b' || c == '\x0c'

/-- Python str.strip(): the line with leading and trailing whitespace
removed, as a list of characters. -/
def strip (line : String) : List Char :=
  ((line.data.dropWhile isSpaceC).reverse.dropWhile isSpaceC).reverse

/-- Python str.startswith(pat) on character lists. -/
def startsWithC (s pat : List Char) : Bool :=
  List.isPrefixOf pat s

/-- Python str.endswith(pat) on character lists. -/
def endsWithC (s pat : List Char) : Bool :=
  List.isSuffixOf pat s

/-- Python substring containment (pat in s) on character lists. -/
def hasSub (pat : List Char) : List Char → Bool
  | [] => List.isPrefixOf pat []
  | c :: rest => List.isPrefixOf pat (c :: rest) || hasSub pat rest

/-! ### The solution-file line filter (_update_sln, src/tfs/unbinder.py)

The loop body is

    stripped = line.strip()
    if stripped.startswith('GlobalSection') and 'VersionControl' in stripped:
        in_vcs_region = True
    if not in_vcs_region:
        out_fp.write(line)
    if in_vcs_region and 'EndGlobalSection' in stripped:
        in_vcs_region = False
-/

/-- The opening-marker test of _update_sln:
stripped.startswith('GlobalSection') and 'VersionControl' in stripped. -/
def isVcsOpen (line : String) : Bool :=
  startsWithC (strip line) "GlobalSection".data &&
    hasSub "VersionControl".data (strip line)

/-- The closing-marker test of _update_sln: 'EndGlobalSection' in stripped. -/
def hasEndGlobal (line : String) : Bool :=
  hasSub "EndGlobalSection".data (strip line)

/-- One iteration of the _update_sln loop, state component only. -/
def slnStep (in_vcs_region : Bool) (line : String) : Bool :=
  let r := if isVcsOpen line then true else in_vcs_region
  if r && hasEndGlobal line then false else r

/-- The state of the _update_sln loop after consuming a list of lines. -/
def slnState (in_vcs_region : Bool) (lines : List String) : Bool :=
  lines.foldl slnStep in_vcs_region

/-- The line filter of _update_sln: the list of lines written to the
output file, starting from a given value of in_vcs_region (False at the
top of every file). -/
def update_sln_lines : Bool → List String → List String
  | _, [] => []
  | in_vcs_region, line :: rest =>
    let r := if isVcsOpen line then true else in_vcs_region
    (if !r then [line] else []) ++
      update_sln_lines (if r && hasEndGlobal line then false else r) rest

/-! ### The project-file line filter (_update_proj, src/tfs/unbinder.py)

The loop body is

    stripped = line.strip()
    if not stripped.startswith('<Scc'):
        out_fp.write(line)
-/

/-- The line filter of _update_proj: the list of lines written to the
output file. -/
def update_proj_lines : List String → List String
  | [] => []
  | line :: rest =>
    (if !startsWithC (strip line) "<Scc".data then [line] else []) ++
      update_proj_lines rest

/-! ### The specification's two-state filter (for claim C1)

Written from the specification's words: outside the region every line is
copied; an opening marker line (trimmed content begins with
"GlobalSection" and contains "VersionControl") switches to inside and is
dropped, after which a line seen inside the region whose trimmed content
contains "EndGlobalSection" — the opening line itself included, its
closing check coming after the switch — closes the region and is
dropped; every line seen inside the region is dropped. -/
def region_filter : Bool → List String → List String
  | _, [] => []
  | false, line :: rest =>
    if isVcsOpen line then
      if hasEndGlobal line then region_filter false rest
      else region_filter true rest
    else line :: region_filter false rest
  | true, line :: rest =>
    if hasEndGlobal line then region_filter false rest
    else region_filter true rest

example : update_sln_lines false
    ["a", "GlobalSection(TfsVersionControl) = preSolution", "x",
     "EndGlobalSection", "b"] = ["a", "b"] := by decide

example : update_proj_lines
    ["  <SccProjectName>Foo</SccProjectName>", "<PropertyGroup>"] =
    ["<PropertyGroup>"] := by decide

/-! ### Lemmas about the solution-file filter -/

theorem update_sln_eq_region_filter (lines : List String) :
    ∀ s, update_sln_lines s lines = region_filter s lines := by
  induction lines with
  | nil => intro s; cases s <;> rfl
  | cons line rest ih =>
    intro s
    cases s <;> cases hop : isVcsOpen line <;> cases hend : hasEndGlobal line <;>
      simp [update_sln_lines, region_filter, hop, hend, ih]

theorem update_sln_lines_sublist (lines : List String) :
    ∀ s, List.Sublist (update_sln_lines s lines) lines := by
  induction lines with
  | nil => intro s; simp [update_sln_lines]
  | cons line rest ih =>
    intro s
    simp only [update_sln_lines]
    cases hop : isVcsOpen line <;> cases s <;> simp [hop] <;>
      first
        | exact ih _
        | exact List.Sublist.cons _ (ih _)

theorem isVcsOpen_eq_false_of_mem_update_sln (lines : List String) :
    ∀ s l, l ∈ update_sln_lines s lines → isVcsOpen l = false := by
  induction lines with
  | nil => intro s l h; simp [update_sln_lines] at h
  | cons line rest ih =>
    intro s l h
    cases hop : isVcsOpen line <;> cases s <;>
      simp [update_sln_lines, hop] at h
    case false.false =>
      rcases h with h | h
      · subst h; exact hop
      · exact ih _ _ h
    all_goals exact ih _ _ h

theorem update_sln_lines_id_of_no_open (lines : List String)
    (h : ∀ l ∈ lines, isVcsOpen l = false) :
    update_sln_lines false lines = lines := by
  induction lines with
  | nil => rfl
  | cons line rest ih =>
    have hline : isVcsOpen line = false := h line (by simp)
    simp [update_sln_lines, hline, ih (fun l hl => h l (by simp [hl]))]

theorem update_sln_lines_append (xs : List String) :
    ∀ s ys, update_sln_lines s (xs ++ ys) =
      update_sln_lines s xs ++ update_sln_lines (slnState s xs) ys := by
  induction xs with
  | nil => intro s ys; simp [update_sln_lines, slnState]
  | cons x xs ih =>
    intro s ys
    simp only [List.cons_append, update_sln_lines, slnState, List.foldl_cons,
      slnStep, List.append_eq, ih, List.append_assoc]

theorem update_sln_lines_true_of_no_end (lines : List String)
    (h : ∀ l ∈ lines, hasEndGlobal l = false) :
    update_sln_lines true lines = [] := by
  induction lines with
  | nil => rfl
  | cons line rest ih =>
    have hline : hasEndGlobal line = false := h line (by simp)
    simp [update_sln_lines, hline, ih (fun l hl => h l (by simp [hl]))]

theorem update_sln_lines_open_noend (x : String) (xs : List String) (s : Bool)
    (hop : isVcsOpen x = true) (hend : hasEndGlobal x = false)
    (hxs : ∀ l ∈ xs, hasEndGlobal l = false) :
    update_sln_lines s (x :: xs) = [] := by
  simp [update_sln_lines, hop, hend, update_sln_lines_true_of_no_end _ hxs]

/-! ### Lemmas about the project-file filter -/

theorem update_proj_lines_eq_filter (lines : List String) :
    update_proj_lines lines =
      lines.filter (fun l => !startsWithC (strip l) "<Scc".data) := by
  induction lines with
  | nil => rfl
  | cons line rest ih =>
    cases hp : startsWithC (strip line) "<Scc".data <;>
      simp [update_proj_lines, hp, ih, List.filter_cons]

theorem update_proj_lines_sublist (lines : List String) :
    List.Sublist (update_proj_lines lines) lines := by
  rw [update_proj_lines_eq_filter]
  exact List.filter_sublist lines

theorem update_proj_lines_idem (lines : List String) :
    update_proj_lines (update_proj_lines lines) = update_proj_lines lines := by
  rw [update_proj_lines_eq_filter lines, update_proj_lines_eq_filter,
    List.filter_eq_self]
  intro l hl
  simpa using (List.mem_filter.mp hl).2

theorem update_sln_lines_idem (lines : List String) :
    update_sln_lines false (update_sln_lines false lines) =
      update_sln_lines false lines :=
  update_sln_lines_id_of_no_open _
    (fun l hl => isVcsOpen_eq_false_of_mem_update_sln lines false l hl)

/-! ### Claims C1, C4, C10, C5 about the line filters -/

/-- Claim C1: the _update_sln filter, started outside the region, is the
two-state filter of the specification — outside the region every line is
copied, an opening marker line switches to inside and is dropped, lines
inside the region are dropped, and an "EndGlobalSection" line seen inside
closes the region and is dropped — and every output line appears verbatim
in the input, in order (the output is a sublist of the input). -/
theorem claim_C1_sln_filter (lines : List String) :
    update_sln_lines false lines = region_filter false lines ∧
    List.Sublist (update_sln_lines false lines) lines :=
  ⟨update_sln_eq_region_filter lines false, update_sln_lines_sublist lines false⟩

/-- Claim C4: the _update_proj filter drops exactly the lines whose
trimmed content begins with "<Scc" (case-sensitive) and keeps every other
line unchanged, including its whitespace; in particular it removes the
indented "<SccProjectName>" line and keeps "<PropertyGroup>" verbatim. -/
theorem claim_C4_proj_filter :
    (∀ lines : List String,
      update_proj_lines lines =
        lines.filter (fun l => !startsWithC (strip l) "<Scc".data)) ∧
    update_proj_lines
        ["  <SccProjectName>Foo</SccProjectName>", "<PropertyGroup>"] =
      ["<PropertyGroup>"] :=
  ⟨update_proj_lines_eq_filter, by decide⟩

/-- Claim C10: a line that both opens the region and contains
"EndGlobalSection" is dropped, the state returns to outside on that same
line, and the rest of the input is processed as if the region had never
existed. -/
theorem claim_C10_one_line_region (line : String) (rest : List String)
    (hop : isVcsOpen line = true) (hend : hasEndGlobal line = true) :
    update_sln_lines false (line :: rest) = update_sln_lines false rest := by
  simp [update_sln_lines, hop, hend]

/-- Witness for claim C10 at a concrete one-line region. -/
theorem claim_C10_one_line_region_witness :
    isVcsOpen "GlobalSection(TfsVersionControl) x EndGlobalSection" = true ∧
    hasEndGlobal "GlobalSection(TfsVersionControl) x EndGlobalSection" = true ∧
    update_sln_lines false
        ["GlobalSection(TfsVersionControl) x EndGlobalSection", "b"] =
      update_sln_lines false ["b"] :=
  ⟨by decide, by decide,
    claim_C10_one_line_region _ _ (by decide) (by decide)⟩

/-- Counterexample to claim C5 as stated: line 0 opens the region and no
later line's trimmed content contains "EndGlobalSection", yet the filter
does not drop everything from line 0 on — the opening line itself
contains "EndGlobalSection", so the region closes on that same line and
"keep" survives. -/
theorem claim_C5_counterexample :
    isVcsOpen
        ((["GlobalSection(TfsVersionControl) EndGlobalSection",
          "keep"].getD 0 "")) = true ∧
    (∀ j, j < 2 → 0 < j →
      hasEndGlobal
        ((["GlobalSection(TfsVersionControl) EndGlobalSection",
          "keep"].getD j "")) = false) ∧
    update_sln_lines false
        ["GlobalSection(TfsVersionControl) EndGlobalSection", "keep"] =
      ["keep"] := by
  refine ⟨by decide, ?_, by decide⟩
  decide

/-- Claim C5 (amended): if line i opens the region and no line from i
onward — the opening line itself included — has trimmed content
containing "EndGlobalSection", then the filter keeps only the output of
the lines before i and drops line i and every subsequent line. -/
theorem claim_C5_unclosed_region (lines : List String) (i : Nat)
    (hi : i < lines.length)
    (hop : isVcsOpen (lines.getD i "") = true)
    (hend : ∀ j, j < lines.length → i ≤ j →
      hasEndGlobal (lines.getD j "") = false) :
    update_sln_lines false lines = update_sln_lines false (lines.take i) := by
  have hsplit : lines = lines.take i ++ (lines.getD i "" :: lines.drop (i + 1)) := by
    rw [List.getD_eq_getElem lines "" hi]
    conv_lhs => rw [← List.take_append_drop i lines]
    rw [List.drop_eq_getElem_cons hi]
  have hopend : hasEndGlobal (lines.getD i "") = false := hend i hi (le_refl i)
  have htail : ∀ l ∈ lines.drop (i + 1), hasEndGlobal l = false := by
    intro l hl
    rcases List.mem_iff_getElem.mp hl with ⟨k, hk, hval⟩
    have hlen : i + 1 + k < lines.length := by
      have h2 := hk
      simp only [List.length_drop] at h2
      omega
    have : (lines.drop (i + 1))[k] = lines[i + 1 + k] := List.getElem_drop lines
    rw [this] at hval
    rw [← hval, ← List.getD_eq_getElem lines "" hlen]
    exact hend _ hlen (by omega)
  conv_lhs => rw [hsplit]
  rw [update_sln_lines_append,
    update_sln_lines_open_noend _ _ _ hop hopend htail]
  simp

/-- Witness for the amended claim C5 at a concrete unclosed region. -/
theorem claim_C5_unclosed_region_witness :
    (1 < (["a", "GlobalSection x VersionControl", "b"] : List String).length) ∧
    update_sln_lines false ["a", "GlobalSection x VersionControl", "b"] =
      update_sln_lines false
        ((["a", "GlobalSection x VersionControl", "b"] : List String).take 1) :=
  ⟨by decide,
    claim_C5_unclosed_region _ 1 (by decide) (by decide) (by decide)⟩

/-! ### The open_inout context manager (src/tfs/libs.py)

    if not in_file or not out_file: raise ValueError(...)
    if not in_enc or not out_enc: raise ValueError(...)
    in_fp = open(in_file, mode='r', encoding=in_enc)
    out_fp = open(out_file, mode='w', encoding=out_enc)
    try:
        yield (in_fp, out_fp)
    finally:
        if in_fp: in_fp.close()
        if out_fp: out_fp.close()

The filesystem effect is modelled by a state recording which handles are
open and which files have been created or truncated by an open for
writing; canOpen says whether opening a given path succeeds.  Both opens
happen before the try block, so a failure of the second open propagates
before the finally clause is installed and no close runs. -/

/-- Open file handles and files created/truncated by opening for write. -/
structure IOState where
  opened : List String
  created : List String
  deriving DecidableEq

/-- The error, if any, that propagates out of an open_inout run. -/
inductive OIOutcome where
  | invalidArg
  | openFail (path : String)
  | bodyErr
  deriving DecidableEq

/-- One run of the open_inout context manager around a caller body that
either completes normally (bodyRaises = false) or raises: the error that
propagates (none on success) and the final filesystem state. -/
def open_inout (canOpen : String → Bool)
    (in_file out_file in_enc out_enc : String) (bodyRaises : Bool)
    (st : IOState) : Option OIOutcome × IOState :=
  if in_file = "" ∨ out_file = "" then (some .invalidArg, st)
  else if in_enc = "" ∨ out_enc = "" then (some .invalidArg, st)
  else if !canOpen in_file then (some (.openFail in_file), st)
  else
    let st1 : IOState := { st with opened := st.opened ++ [in_file] }
    if !canOpen out_file then (some (.openFail out_file), st1)
    else
      let st2 : IOState :=
        { opened := st1.opened ++ [out_file],
          created := st1.created ++ [out_file] }
      let st3 : IOState :=
        { st2 with opened := (st2.opened.erase in_file).erase out_file }
      ((if bodyRaises then some .bodyErr else none), st3)

/-- Claim C3, evaluated at the failing input: opening "in.txt" succeeds,
opening "out.txt" raises, and the error propagates while the input handle
is still open — the code never closes it, because the second open sits
before the try/finally block. -/
theorem claim_C3_input_left_open :
    open_inout (fun p => p == "in.txt") "in.txt" "out.txt" "utf-8" "utf-8"
        false ⟨[], []⟩ =
      (some (.openFail "out.txt"), ⟨["in.txt"], []⟩) ∧
    "in.txt" ∈ (open_inout (fun p => p == "in.txt") "in.txt" "out.txt"
        "utf-8" "utf-8" false ⟨[], []⟩).2.opened := by
  constructor <;> decide

/-- Claim C9: the input file is opened before the output file, so when
opening the input fails the error propagates with the state unchanged —
in particular the output file has not been created or truncated. -/
theorem claim_C9_input_opened_first (canOpen : String → Bool)
    (in_file out_file in_enc out_enc : String) (bodyRaises : Bool)
    (st : IOState)
    (h1 : ¬ in_file = "") (h2 : ¬ out_file = "")
    (h3 : ¬ in_enc = "") (h4 : ¬ out_enc = "")
    (hin : canOpen in_file = false) :
    open_inout canOpen in_file out_file in_enc out_enc bodyRaises st =
      (some (.openFail in_file), st) := by
  simp [open_inout, h1, h2, h3, h4, hin]

/-- Witness for claim C9 at a concrete missing input file. -/
theorem claim_C9_input_opened_first_witness :
    ¬ "missing.txt" = "" ∧
    open_inout (fun _ => false) "missing.txt" "out.txt" "utf-8" "utf-8"
        false ⟨[], ["x"]⟩ =
      (some (.openFail "missing.txt"), ⟨[], ["x"]⟩) :=
  ⟨by decide,
    claim_C9_input_opened_first _ _ _ _ _ _ _ (by decide) (by decide)
      (by decide) (by decide) rfl⟩

/-! ### The chdir context manager (src/tfs/libs.py)

    if directory is None or not os.path.exists(directory):
        raise ValueError(...)
    _orig_dir = os.path.abspath(os.path.curdir)
    try:
        os.chdir(directory)
        yield os.path.abspath(directory)
    finally:
        os.chdir(_orig_dir)

Paths are modelled as segment lists; a path argument is either absolute
or relative, and os.path.abspath resolves a relative path against the
current working directory (no "." or ".." segments are modelled;
os.path.curdir is the relative path with no segments). -/

/-- A path argument: absolute or relative, as segments. -/
inductive PyPath where
  | absP (segs : List String)
  | relP (segs : List String)
  deriving DecidableEq

/-- os.path.abspath, resolved against the working directory cwd. -/
def abspath (cwd : List String) : PyPath → List String
  | .absP segs => segs
  | .relP segs => cwd ++ segs

/-- The observable outcome of one chdir run: the value yielded to the
body (none when ValueError is raised before the yield), whether an error
propagates, and the process working directory after exit. -/
structure ChdirOutcome where
  yielded : Option (List String)
  errored : Bool
  finalCwd : List String
  deriving DecidableEq

/-- One run of the chdir context manager.  dirs is the set of existing
directories (as absolute segment paths) for the os.path.exists check,
cwd the working directory at entry.  os.chdir(directory) switches the
working directory to abspath cwd directory; the yielded value is
os.path.abspath(directory) computed after that switch; the finally
clause switches back to _orig_dir. -/
def chdir (dirs : List (List String)) (cwd : List String)
    (directory : Option PyPath) (bodyRaises : Bool) : ChdirOutcome :=
  match directory with
  | none => ⟨none, true, cwd⟩
  | some d =>
    if dirs.contains (abspath cwd d) then
      let origDir := abspath cwd (.relP [])
      let cwd1 := abspath cwd d
      let yielded := abspath cwd1 d
      ⟨some yielded, bodyRaises, origDir⟩
    else ⟨none, true, cwd⟩

/-- Claim C7: for an existing target directory, chdir restores the
previously recorded working directory on exit, whether the caller's body
completes normally or raises. -/
theorem claim_C7_chdir_restores (dirs : List (List String))
    (cwd : List String) (d : PyPath) (bodyRaises : Bool)
    (hex : dirs.contains (abspath cwd d) = true) :
    (chdir dirs cwd (some d) bodyRaises).finalCwd = cwd := by
  have hred : chdir dirs cwd (some d) bodyRaises =
      if dirs.contains (abspath cwd d) then
        ⟨some (abspath (abspath cwd d) d), bodyRaises, abspath cwd (.relP [])⟩
      else ⟨none, true, cwd⟩ := rfl
  rw [hred]
  split <;> simp [abspath]

/-- Witness for claim C7 with a body that raises. -/
theorem claim_C7_chdir_restores_witness :
    ([["home", "sub"]] : List (List String)).contains
        (abspath ["home"] (.relP ["sub"])) = true ∧
    (chdir [["home", "sub"]] ["home"] (some (.relP ["sub"])) true).finalCwd =
      ["home"] :=
  ⟨by decide, claim_C7_chdir_restores _ _ _ _ (by decide)⟩

/-- Claim C8, evaluated at the failing input: from working directory
/home, chdir("sub") with /home/sub existing yields /home/sub/sub — the
absolute path is computed only after the working directory has already
been switched into the target — instead of the target's absolute
location /home/sub. -/
theorem claim_C8_relative_yield_wrong :
    (chdir [["home", "sub"]] ["home"] (some (.relP ["sub"])) false).yielded =
      some ["home", "sub", "sub"] ∧
    ¬ (chdir [["home", "sub"]] ["home"]
        (some (.relP ["sub"])) false).yielded =
      some (abspath ["home"] (.relP ["sub"])) := by
  constructor <;> decide

/-! ### The destination tree, os.walk and _collect (src/tfs/unbinder.py)

A directory tree is a name, the files directly inside (filename and
content as a list of lines) and the subdirectories.  Paths are segment
lists; os.path.join appends a segment, and str.endswith checks on a
dirpath apply to the string the segments print as when joined with the
separator. -/

/-- A directory of the tree. -/
inductive FSTree where
  | node (name : String) (files : List (String × List String))
      (subs : List FSTree)

/-- One entry of the os.walk output: the directory path and the files
directly inside it, with their contents. -/
structure DirEnt where
  dirpath : List String
  files : List (String × List String)
  deriving DecidableEq

/-- The character string a segment path prints as (segments joined with
the path separator). -/
def pathChars : List String → List Char
  | [] => []
  | [s] => s.data
  | s :: rest => s.data ++ '/' :: pathChars rest

mutual

/-- os.walk, top-down: the directory itself first, then the walk of each
subdirectory.  _collect never prunes dirnames, so every directory of the
tree is visited. -/
def walk (base : List String) : FSTree → List DirEnt
  | .node name files subs =>
    ⟨base ++ [name], files⟩ :: walkList (base ++ [name]) subs

/-- os.walk over a list of sibling subdirectories. -/
def walkList (base : List String) : List FSTree → List DirEnt
  | [] => []
  | t :: ts => walk base t ++ walkList base ts

end

/-- The fixed tuple of unnecessary directory names. -/
def unnecessary_dir_types : List String := ["Debug", "Release", "StyleCop"]

/-- The fixed tuple of unnecessary file extensions. -/
def unnecessary_file_types : List String :=
  [".vssscc", ".user", ".vspscc", ".pdb"]

/-- Python str.endswith with a tuple of suffixes. -/
def endsWithAnyC (s : List Char) (pats : List String) : Bool :=
  pats.any (fun pat => endsWithC s pat.data)

/-- dirpath.endswith(unnecessary_dir_types): the test that sends a
directory to del_dirs.  Note it is a suffix test on the whole printed
dirpath. -/
def is_del_dirpath (p : List String) : Bool :=
  endsWithAnyC (pathChars p) unnecessary_dir_types

/-- fname.endswith(unnecessary_file_types). -/
def is_del_fname (n : String) : Bool :=
  endsWithAnyC n.data unnecessary_file_types

/-- fname.endswith('.sln'). -/
def is_sln_fname (n : String) : Bool :=
  endsWithC n.data ".sln".data

/-- fname.endswith('proj'). -/
def is_proj_fname (n : String) : Bool :=
  endsWithC n.data "proj".data

/-- The four lists produced by _collect. -/
structure ClassificationResult where
  del_dirs : List (List String)
  del_files : List (List String)
  sln_files : List (List String)
  proj_files : List (List String)
  deriving DecidableEq

/-- The del_dirs contribution of one walk entry. -/
def entry_del_dirs (e : DirEnt) : List (List String) :=
  if is_del_dirpath e.dirpath then [e.dirpath] else []

/-- The del_files contribution of one walk entry: nothing when the
dirpath matches an unnecessary directory name (the else branch of the
loop is not taken), otherwise the files whose name ends with an
unnecessary extension. -/
def entry_del_files (e : DirEnt) : List (List String) :=
  if is_del_dirpath e.dirpath then []
  else (e.files.filter (fun f => is_del_fname f.1)).map
    (fun f => e.dirpath ++ [f.1])

/-- The sln_files contribution of one walk entry. -/
def entry_sln_files (e : DirEnt) : List (List String) :=
  if is_del_dirpath e.dirpath then []
  else (e.files.filter (fun f => is_sln_fname f.1)).map
    (fun f => e.dirpath ++ [f.1])

/-- The proj_files contribution of one walk entry. -/
def entry_proj_files (e : DirEnt) : List (List String) :=
  if is_del_dirpath e.dirpath then []
  else (e.files.filter (fun f => is_proj_fname f.1)).map
    (fun f => e.dirpath ++ [f.1])

/-- _collect: one pass over the walk entries, appending each entry's
contributions to the four lists; an entry whose dirpath matches an
unnecessary directory name goes to del_dirs and its files are not
classified, otherwise its files are classified by three independent
suffix tests. -/
def collect (entries : List DirEnt) : ClassificationResult :=
  ⟨entries.flatMap entry_del_dirs, entries.flatMap entry_del_files,
   entries.flatMap entry_sln_files, entries.flatMap entry_proj_files⟩

/-- The tree dest/Debug/sub/a.pdb used to evaluate claim C2. -/
def c2Tree : FSTree :=
  .node "dest" [] [.node "Debug" [] [.node "sub" [("a.pdb", [])] []]]

/-- Claim C2, evaluated at a concrete tree: os.walk is never pruned, so
_collect records dest/Debug in directories-to-delete and still descends
into dest/Debug/sub, whose path matches no unnecessary name, and lists
dest/Debug/sub/a.pdb in files-to-delete — a file under a directory
recorded for deletion. -/
theorem claim_C2_descends_into_deleted_dir :
    ["dest", "Debug"] ∈ (collect (walk [] c2Tree)).del_dirs ∧
    ["dest", "Debug", "sub", "a.pdb"] ∈ (collect (walk [] c2Tree)).del_files ∧
    List.isPrefixOf ["dest", "Debug"]
      ["dest", "Debug", "sub", "a.pdb"] = true := by
  refine ⟨?_, ?_, ?_⟩ <;> decide

/-! ### _delete, the rewrite phases and the unbind pipeline

The remaining phases are modelled on the walk output itself — a list of
directory entries with file contents is everything the code observes.
shutil.rmtree removes a directory together with everything below it, and
os.unlink removes one file; _delete tolerates a FileNotFoundError for an
entry that is already gone, so its net effect is to remove every entry
lying at or below a listed directory and every listed file.
_update_sln and _update_proj open every collected path — a
FileNotFoundError for a path whose directory has just been deleted is
not caught and aborts the run — and replace the file's content with the
filtered lines (the .new temporary, shutil.copystat and shutil.move
affect only metadata, which this content model does not represent;
_make_writeable and the initial copy change no content either). -/

/-- Net effect of _delete on the tree. -/
def delete_entries (fs : List DirEnt)
    (del_dirs del_files : List (List String)) : List DirEnt :=
  (fs.filter (fun e => !del_dirs.any (fun d => List.isPrefixOf d e.dirpath))).map
    (fun e => ⟨e.dirpath,
      e.files.filter (fun f => !del_files.contains (e.dirpath ++ [f.1]))⟩)

/-- Whether a file exists at the given path. -/
def hasFile (fs : List DirEnt) (p : List String) : Bool :=
  fs.any (fun e => e.files.any (fun f => e.dirpath ++ [f.1] == p))

/-- Replace the content of every file at path p by g of that content. -/
def mapFile (fs : List DirEnt) (p : List String)
    (g : List String → List String) : List DirEnt :=
  fs.map (fun e => ⟨e.dirpath,
    e.files.map (fun f => if e.dirpath ++ [f.1] == p then (f.1, g f.2) else f)⟩)

/-- Rewrite one collected file; opening a path that no longer exists
raises FileNotFoundError, which the rewrite phases do not catch. -/
def update_file (fs : List DirEnt) (p : List String)
    (g : List String → List String) : Except Unit (List DirEnt) :=
  if hasFile fs p then .ok (mapFile fs p g) else .error ()

/-- The for loop of _update_sln / _update_proj: rewrite each collected
path in turn, aborting on the first error. -/
def update_files (g : List String → List String) :
    List DirEnt → List (List String) → Except Unit (List DirEnt)
  | fs, [] => .ok fs
  | fs, p :: ps => match update_file fs p g with
    | .ok fs2 => update_files g fs2 ps
    | .error e => .error e

/-- The unbind pipeline once the destination tree exists (the copy step
is skipped when it does): classify, delete, rewrite solution files,
rewrite project files.  An uncaught error from a rewrite aborts the
run. -/
def unbind (fs : List DirEnt) : Except Unit (List DirEnt) :=
  let c := collect fs
  let fs1 := delete_entries fs c.del_dirs c.del_files
  match update_files (update_sln_lines false) fs1 c.sln_files with
  | .error e => .error e
  | .ok fs2 => update_files update_proj_lines fs2 c.proj_files

/-! ### Characterizations of _collect -/

theorem append_singleton_inj {α : Type} {x y : List α} {a b : α}
    (h : x ++ [a] = y ++ [b]) : x = y ∧ a = b := by
  have h2 : a :: x.reverse = b :: y.reverse := by
    have h3 := congrArg List.reverse h
    simpa using h3
  obtain ⟨hab, hxy⟩ := List.cons.inj h2
  exact ⟨List.reverse_injective hxy, hab⟩

theorem mem_entry_classified (q : String → Bool) (e : DirEnt) (x : List String) :
    (x ∈ if is_del_dirpath e.dirpath then ([] : List (List String))
      else (e.files.filter (fun f => q f.1)).map (fun f => e.dirpath ++ [f.1])) ↔
      is_del_dirpath e.dirpath = false ∧
        ∃ f, f ∈ e.files ∧ q f.1 = true ∧ e.dirpath ++ [f.1] = x := by
  cases hm : is_del_dirpath e.dirpath <;>
    simp [hm, List.mem_map, List.mem_filter, and_assoc]

theorem mem_collect_del_dirs (fs : List DirEnt) (d : List String) :
    d ∈ (collect fs).del_dirs ↔
      ∃ e, e ∈ fs ∧ is_del_dirpath e.dirpath = true ∧ d = e.dirpath := by
  simp only [collect, List.mem_flatMap, entry_del_dirs]
  constructor
  · rintro ⟨e, he, hd⟩
    cases hm : is_del_dirpath e.dirpath
    · simp [hm] at hd
    · simp [hm] at hd
      exact ⟨e, he, hm, hd⟩
  · rintro ⟨e, he, hm, rfl⟩
    exact ⟨e, he, by simp [hm]⟩

theorem mem_collect_del_files (fs : List DirEnt) (x : List String) :
    x ∈ (collect fs).del_files ↔
      ∃ e, e ∈ fs ∧ is_del_dirpath e.dirpath = false ∧
        ∃ f, f ∈ e.files ∧ is_del_fname f.1 = true ∧ e.dirpath ++ [f.1] = x := by
  simp only [collect, List.mem_flatMap, entry_del_files, mem_entry_classified,
    and_assoc]

theorem mem_collect_sln_files (fs : List DirEnt) (x : List String) :
    x ∈ (collect fs).sln_files ↔
      ∃ e, e ∈ fs ∧ is_del_dirpath e.dirpath = false ∧
        ∃ f, f ∈ e.files ∧ is_sln_fname f.1 = true ∧ e.dirpath ++ [f.1] = x := by
  simp only [collect, List.mem_flatMap, entry_sln_files, mem_entry_classified,
    and_assoc]

theorem mem_collect_proj_files (fs : List DirEnt) (x : List String) :
    x ∈ (collect fs).proj_files ↔
      ∃ e, e ∈ fs ∧ is_del_dirpath e.dirpath = false ∧
        ∃ f, f ∈ e.files ∧ is_proj_fname f.1 = true ∧ e.dirpath ++ [f.1] = x := by
  simp only [collect, List.mem_flatMap, entry_proj_files, mem_entry_classified,
    and_assoc]

theorem collect_del_dirs_eq_nil (fs : List DirEnt)
    (h : ∀ e ∈ fs, is_del_dirpath e.dirpath = false) :
    (collect fs).del_dirs = [] := by
  rcases hd : (collect fs).del_dirs with _ | ⟨d, ds⟩
  · rfl
  · exfalso
    have hmem : d ∈ (collect fs).del_dirs := by rw [hd]; simp
    rcases (mem_collect_del_dirs fs d).mp hmem with ⟨e, he, hm, rfl⟩
    rw [h e he] at hm
    cases hm

theorem collect_del_files_eq_nil (fs : List DirEnt)
    (h : ∀ e ∈ fs, ∀ f ∈ e.files, is_del_fname f.1 = false) :
    (collect fs).del_files = [] := by
  rcases hd : (collect fs).del_files with _ | ⟨x, xs⟩
  · rfl
  · exfalso
    have hmem : x ∈ (collect fs).del_files := by rw [hd]; simp
    rcases (mem_collect_del_files fs x).mp hmem with
      ⟨e, he, _, f, hf, hdel, _⟩
    rw [h e he f hf] at hdel
    cases hdel

/-! ### Lemmas about _delete and the rewrite machinery -/

theorem mem_delete_entries (fs : List DirEnt) (dd df : List (List String))
    (e2 : DirEnt) (h : e2 ∈ delete_entries fs dd df) :
    ∃ e, e ∈ fs ∧ dd.any (fun d => List.isPrefixOf d e.dirpath) = false ∧
      e2 = ⟨e.dirpath,
        e.files.filter (fun f => !df.contains (e.dirpath ++ [f.1]))⟩ := by
  unfold delete_entries at h
  rcases List.mem_map.mp h with ⟨e, he, rfl⟩
  rcases List.mem_filter.mp he with ⟨he2, hcond⟩
  refine ⟨e, he2, ?_, rfl⟩
  simpa using hcond

theorem delete_entries_nil (fs : List DirEnt) :
    delete_entries fs [] [] = fs := by
  unfold delete_entries
  induction fs with
  | nil => rfl
  | cons e fs ih =>
    simp only [List.filter_cons, List.any_nil, Bool.not_false, if_true,
      List.map_cons] at ih ⊢
    rw [ih]
    have hfiles :
        e.files.filter
          (fun f => !(List.contains ([] : List (List String))
            (e.dirpath ++ [f.1]))) = e.files := by
      simp
    rw [hfiles]

theorem map_files_eq_self (dp : List String)
    (files : List (String × List String)) (p : List String)
    (g : List String → List String)
    (h : ∀ f ∈ files, dp ++ [f.1] = p → g f.2 = f.2) :
    files.map (fun f => if dp ++ [f.1] == p then (f.1, g f.2) else f) =
      files := by
  induction files with
  | nil => rfl
  | cons f fsl ih =>
    simp only [List.map_cons]
    have h2 : (if dp ++ [f.1] == p then (f.1, g f.2) else f) = f := by
      by_cases hp : dp ++ [f.1] = p
      · simp [hp, h f (by simp) hp]
      · simp [hp]
    rw [h2, ih (fun f2 hf2 hp2 => h f2 (by simp [hf2]) hp2)]

theorem mapFile_eq_self (fs : List DirEnt) (p : List String)
    (g : List String → List String)
    (h : ∀ e ∈ fs, ∀ f ∈ e.files, e.dirpath ++ [f.1] = p → g f.2 = f.2) :
    mapFile fs p g = fs := by
  unfold mapFile
  induction fs with
  | nil => rfl
  | cons e fs ih =>
    simp only [List.map_cons]
    rw [map_files_eq_self e.dirpath e.files p g
        (fun f hf hp => h e (by simp) f hf hp),
      ih (fun e2 he2 f hf hp => h e2 (by simp [he2]) f hf hp)]

theorem mem_mapFile (fs : List DirEnt) (p : List String)
    (g : List String → List String) (e2 : DirEnt)
    (h : e2 ∈ mapFile fs p g) :
    ∃ e, e ∈ fs ∧ e2.dirpath = e.dirpath ∧
      ∀ f2 ∈ e2.files, ∃ f, f ∈ e.files ∧ f2.1 = f.1 ∧
        ((¬ e.dirpath ++ [f.1] = p) ∧ f2.2 = f.2 ∨
          e.dirpath ++ [f.1] = p ∧ f2.2 = g f.2) := by
  unfold mapFile at h
  rcases List.mem_map.mp h with ⟨e, he, rfl⟩
  refine ⟨e, he, rfl, ?_⟩
  intro f2 hf2
  rcases List.mem_map.mp hf2 with ⟨f, hf, heq⟩
  by_cases hp : e.dirpath ++ [f.1] = p
  · refine ⟨f, hf, ?_, Or.inr ⟨hp, ?_⟩⟩ <;> rw [← heq] <;> simp [hp]
  · refine ⟨f, hf, ?_, Or.inl ⟨hp, ?_⟩⟩ <;> rw [← heq] <;> simp [hp]

theorem update_file_ok (fs fs2 : List DirEnt) (p : List String)
    (g : List String → List String)
    (h : update_file fs p g = .ok fs2) :
    hasFile fs p = true ∧ fs2 = mapFile fs p g := by
  unfold update_file at h
  by_cases hh : hasFile fs p = true
  · simp only [hh, if_true] at h
    exact ⟨hh, (Except.ok.inj h).symm⟩
  · simp only [hh, if_false] at h
    cases h

/-! ### Lemmas about the rewrite phases -/

theorem update_files_names (g : List String → List String)
    (ps : List (List String)) :
    ∀ fs fs2, update_files g fs ps = .ok fs2 →
      ∀ e2 ∈ fs2, ∃ e, e ∈ fs ∧ e2.dirpath = e.dirpath ∧
        ∀ f2 ∈ e2.files, ∃ f, f ∈ e.files ∧ f2.1 = f.1 := by
  induction ps with
  | nil =>
    intro fs fs2 h e2 he2
    simp only [update_files] at h
    cases h
    exact ⟨e2, he2, rfl, fun f2 hf2 => ⟨f2, hf2, rfl⟩⟩
  | cons p ps ih =>
    intro fs fs2 h e2 he2
    unfold update_files at h
    cases hu : update_file fs p g with
    | error err => rw [hu] at h; exact absurd h (by simp)
    | ok fsm =>
      rw [hu] at h
      rcases update_file_ok fs fsm p g hu with ⟨_, rfl⟩
      rcases ih (mapFile fs p g) fs2 h e2 he2 with ⟨em, hem, hdp, hn⟩
      rcases mem_mapFile fs p g em hem with ⟨e, he, hdp2, hn2⟩
      refine ⟨e, he, hdp.trans hdp2, ?_⟩
      intro f2 hf2
      rcases hn f2 hf2 with ⟨fm, hfm, h1⟩
      rcases hn2 fm hfm with ⟨f, hf, h3, _⟩
      exact ⟨f, hf, h1.trans h3⟩

theorem update_files_preserve (g : List String → List String)
    (Q : List String → String → List String → Prop)
    (hg : ∀ dp n c, Q dp n c → Q dp n (g c)) (ps : List (List String)) :
    ∀ fs fs2, update_files g fs ps = .ok fs2 →
      (∀ e ∈ fs, ∀ f ∈ e.files, Q e.dirpath f.1 f.2) →
      ∀ e2 ∈ fs2, ∀ f2 ∈ e2.files, Q e2.dirpath f2.1 f2.2 := by
  induction ps with
  | nil =>
    intro fs fs2 h hQ
    simp only [update_files] at h
    cases h
    exact hQ
  | cons p ps ih =>
    intro fs fs2 h hQ
    unfold update_files at h
    cases hu : update_file fs p g with
    | error err => rw [hu] at h; exact absurd h (by simp)
    | ok fsm =>
      rw [hu] at h
      rcases update_file_ok fs fsm p g hu with ⟨_, rfl⟩
      refine ih (mapFile fs p g) fs2 h ?_
      intro em hem fm hfm
      rcases mem_mapFile fs p g em hem with ⟨e, he, hdp, hn⟩
      rcases hn fm hfm with ⟨f, hf, hname, hcontent⟩
      rw [hdp, hname]
      rcases hcontent with ⟨_, hc⟩ | ⟨_, hc⟩
      · rw [hc]; exact hQ e he f hf
      · rw [hc]; exact hg _ _ _ (hQ e he f hf)

theorem update_files_at_paths (g : List String → List String)
    (ps : List (List String)) :
    ∀ fs fs2, update_files g fs ps = .ok fs2 →
      ∀ p ∈ ps, ∀ e2 ∈ fs2, ∀ f2 ∈ e2.files,
        e2.dirpath ++ [f2.1] = p → ∃ c, f2.2 = g c := by
  induction ps with
  | nil => intro fs fs2 h p hp; simp at hp
  | cons p0 ps ih =>
    intro fs fs2 h p hp
    unfold update_files at h
    cases hu : update_file fs p0 g with
    | error err => rw [hu] at h; exact absurd h (by simp)
    | ok fsm =>
      rw [hu] at h
      rcases update_file_ok fs fsm p0 g hu with ⟨_, rfl⟩
      rcases List.mem_cons.mp hp with heq | hp2
      · intro e2 he2 f2 hf2 hpath
        rw [heq] at hpath
        refine update_files_preserve g
          (fun dp n c => dp ++ [n] = p0 → ∃ c0, c = g c0)
          (fun dp n c _ _ => ⟨c, rfl⟩) ps (mapFile fs p0 g) fs2 h
          ?_ e2 he2 f2 hf2 hpath
        intro em hem fm hfm hpm
        rcases mem_mapFile fs p0 g em hem with ⟨e, he, hdp, hn⟩
        rcases hn fm hfm with ⟨f, hf, hname, hcontent⟩
        rcases hcontent with ⟨hne, _⟩ | ⟨_, hc⟩
        · exfalso
          rw [hdp, hname] at hpm
          exact hne hpm
        · exact ⟨f.2, hc⟩
      · exact ih (mapFile fs p0 g) fs2 h p hp2

theorem update_files_id (g : List String → List String)
    (ps : List (List String)) (fs : List DirEnt)
    (hex : ∀ p ∈ ps, hasFile fs p = true)
    (hfix : ∀ p ∈ ps, ∀ e ∈ fs, ∀ f ∈ e.files,
      e.dirpath ++ [f.1] = p → g f.2 = f.2) :
    update_files g fs ps = .ok fs := by
  induction ps with
  | nil => rfl
  | cons p ps ih =>
    have h1 : update_file fs p g = .ok fs := by
      unfold update_file
      rw [if_pos (hex p (by simp)),
        mapFile_eq_self fs p g (hfix p (by simp))]
    unfold update_files
    rw [h1]
    exact ih (fun q hq => hex q (by simp [hq]))
      (fun q hq f2 hf2 => hfix q (by simp [hq]) f2 hf2)

theorem hasFile_of_mem (fs : List DirEnt) (e : DirEnt)
    (f : String × List String) (he : e ∈ fs) (hf : f ∈ e.files) :
    hasFile fs (e.dirpath ++ [f.1]) = true := by
  unfold hasFile
  rw [List.any_eq_true]
  exact ⟨e, he, by rw [List.any_eq_true]; exact ⟨f, hf, by simp⟩⟩

theorem scc_false_of_mem_update_proj (lines : List String) (l : String)
    (h : l ∈ update_proj_lines lines) :
    startsWithC (strip l) "<Scc".data = false := by
  rw [update_proj_lines_eq_filter] at h
  have h2 := (List.mem_filter.mp h).2
  simpa using h2

theorem update_proj_lines_id_of_no_scc (lines : List String)
    (h : ∀ l ∈ lines, startsWithC (strip l) "<Scc".data = false) :
    update_proj_lines lines = lines := by
  rw [update_proj_lines_eq_filter, List.filter_eq_self]
  intro l hl
  simp [h l hl]

/-! ### Idempotence of the pipeline -/

theorem isPrefixOf_refl_true (l : List String) :
    List.isPrefixOf l l = true := by
  induction l with
  | nil => rfl
  | cons a l ih => simp [List.isPrefixOf, ih]

theorem dirpath_not_matched_of_not_deleted (fs : List DirEnt) (e : DirEnt)
    (he : e ∈ fs)
    (hany : (collect fs).del_dirs.any
      (fun d => List.isPrefixOf d e.dirpath) = false) :
    is_del_dirpath e.dirpath = false := by
  cases hm : is_del_dirpath e.dirpath
  · rfl
  · exfalso
    have hd : e.dirpath ∈ (collect fs).del_dirs :=
      (mem_collect_del_dirs fs e.dirpath).mpr ⟨e, he, hm, rfl⟩
    have hx : (collect fs).del_dirs.any
        (fun d => List.isPrefixOf d e.dirpath) = true := by
      rw [List.any_eq_true]
      exact ⟨e.dirpath, hd, isPrefixOf_refl_true _⟩
    rw [hany] at hx
    cases hx

theorem unbind_ok_fixpoint (fs fs2 : List DirEnt)
    (h : unbind fs = .ok fs2) : unbind fs2 = .ok fs2 := by
  have hunb : unbind fs = (match update_files (update_sln_lines false)
      (delete_entries fs (collect fs).del_dirs (collect fs).del_files)
      (collect fs).sln_files with
    | .error e => (.error e : Except Unit (List DirEnt))
    | .ok fsA => update_files update_proj_lines fsA
        (collect fs).proj_files) := rfl
  rw [hunb] at h
  cases hsln : update_files (update_sln_lines false)
      (delete_entries fs (collect fs).del_dirs (collect fs).del_files)
      (collect fs).sln_files with
  | error err => rw [hsln] at h; exact absurd h (by simp)
  | ok fsA =>
    rw [hsln] at h
    have hproj : update_files update_proj_lines fsA
        (collect fs).proj_files = .ok fs2 := h
    -- facts about the tree right after _delete
    have F1 : ∀ e1 ∈ delete_entries fs (collect fs).del_dirs
        (collect fs).del_files, is_del_dirpath e1.dirpath = false := by
      intro e1 he1
      rcases mem_delete_entries fs _ _ e1 he1 with ⟨e, he, hany, rfl⟩
      exact dirpath_not_matched_of_not_deleted fs e he hany
    have F2 : ∀ e1 ∈ delete_entries fs (collect fs).del_dirs
        (collect fs).del_files, ∀ f ∈ e1.files,
        is_del_fname f.1 = false := by
      intro e1 he1 f hf
      rcases mem_delete_entries fs _ _ e1 he1 with ⟨e, he, hany, rfl⟩
      rcases List.mem_filter.mp hf with ⟨hfe, hcond⟩
      cases hm : is_del_fname f.1
      · rfl
      · exfalso
        have hdm : is_del_dirpath e.dirpath = false :=
          dirpath_not_matched_of_not_deleted fs e he hany
        have hdf : e.dirpath ++ [f.1] ∈ (collect fs).del_files :=
          (mem_collect_del_files fs _).mpr ⟨e, he, hdm, f, hfe, hm, rfl⟩
        have hco : (collect fs).del_files.contains (e.dirpath ++ [f.1]) =
            true := by simpa using hdf
        rw [hco] at hcond
        cases hcond
    have F3 : ∀ e1 ∈ delete_entries fs (collect fs).del_dirs
        (collect fs).del_files, ∀ f ∈ e1.files, is_sln_fname f.1 = true →
        e1.dirpath ++ [f.1] ∈ (collect fs).sln_files := by
      intro e1 he1 f hf hsn
      rcases mem_delete_entries fs _ _ e1 he1 with ⟨e, he, hany, rfl⟩
      rcases List.mem_filter.mp hf with ⟨hfe, _⟩
      exact (mem_collect_sln_files fs _).mpr
        ⟨e, he, dirpath_not_matched_of_not_deleted fs e he hany,
          f, hfe, hsn, rfl⟩
    have F4 : ∀ e1 ∈ delete_entries fs (collect fs).del_dirs
        (collect fs).del_files, ∀ f ∈ e1.files, is_proj_fname f.1 = true →
        e1.dirpath ++ [f.1] ∈ (collect fs).proj_files := by
      intro e1 he1 f hf hpn
      rcases mem_delete_entries fs _ _ e1 he1 with ⟨e, he, hany, rfl⟩
      rcases List.mem_filter.mp hf with ⟨hfe, _⟩
      exact (mem_collect_proj_files fs _).mpr
        ⟨e, he, dirpath_not_matched_of_not_deleted fs e he hany,
          f, hfe, hpn, rfl⟩
    -- dirpaths and file names survive both rewrite phases
    have GA : ∀ e2 ∈ fs2, ∃ e1, e1 ∈ delete_entries fs
        (collect fs).del_dirs (collect fs).del_files ∧
        e2.dirpath = e1.dirpath ∧
        ∀ f2 ∈ e2.files, ∃ f1, f1 ∈ e1.files ∧ f2.1 = f1.1 := by
      intro e2 he2
      rcases update_files_names update_proj_lines (collect fs).proj_files
        fsA fs2 hproj e2 he2 with ⟨eA, heA, hdpA, hnA⟩
      rcases update_files_names (update_sln_lines false)
        (collect fs).sln_files _ fsA hsln eA heA with ⟨e1, he1, hdp1, hn1⟩
      refine ⟨e1, he1, hdpA.trans hdp1, ?_⟩
      intro f2 hf2
      rcases hnA f2 hf2 with ⟨fA, hfA, h1⟩
      rcases hn1 fA hfA with ⟨f1, hf1, h2⟩
      exact ⟨f1, hf1, h1.trans h2⟩
    have H1 : ∀ e2 ∈ fs2, is_del_dirpath e2.dirpath = false := by
      intro e2 he2
      rcases GA e2 he2 with ⟨e1, he1, hdp, _⟩
      rw [hdp]
      exact F1 e1 he1
    have H2 : ∀ e2 ∈ fs2, ∀ f2 ∈ e2.files, is_del_fname f2.1 = false := by
      intro e2 he2 f2 hf2
      rcases GA e2 he2 with ⟨e1, he1, _, hn⟩
      rcases hn f2 hf2 with ⟨f1, hf1, hname⟩
      rw [hname]
      exact F2 e1 he1 f1 hf1
    -- solution files of the result contain no opening marker lines
    have H5 : ∀ e2 ∈ fs2, ∀ f2 ∈ e2.files, is_sln_fname f2.1 = true →
        ∀ l ∈ f2.2, isVcsOpen l = false := by
      refine update_files_preserve update_proj_lines
        (fun dp n cont => is_sln_fname n = true →
          ∀ l ∈ cont, isVcsOpen l = false)
        ?_ (collect fs).proj_files fsA fs2 hproj ?_
      · intro dp n cont hQ hsn l hl
        exact hQ hsn l ((update_proj_lines_sublist cont).subset hl)
      · intro eA heA fA hfA hsn
        rcases update_files_names (update_sln_lines false)
          (collect fs).sln_files _ fsA hsln eA heA with ⟨e1, he1, hdp1, hn1⟩
        rcases hn1 fA hfA with ⟨f1, hf1, hname⟩
        have hpath : eA.dirpath ++ [fA.1] ∈ (collect fs).sln_files := by
          rw [hdp1, hname]
          exact F3 e1 he1 f1 hf1 (by rw [← hname]; exact hsn)
        rcases update_files_at_paths (update_sln_lines false)
          (collect fs).sln_files _ fsA hsln _ hpath eA heA fA hfA rfl with
          ⟨c0, hc0⟩
        intro l hl
        rw [hc0] at hl
        exact isVcsOpen_eq_false_of_mem_update_sln c0 false l hl
    -- project files of the result contain no binding tag lines
    have H6 : ∀ e2 ∈ fs2, ∀ f2 ∈ e2.files, is_proj_fname f2.1 = true →
        ∀ l ∈ f2.2, startsWithC (strip l) "<Scc".data = false := by
      intro e2 he2 f2 hf2 hpn
      rcases update_files_names update_proj_lines (collect fs).proj_files
        fsA fs2 hproj e2 he2 with ⟨eA, heA, hdpA, hnA⟩
      rcases hnA f2 hf2 with ⟨fA, hfA, hnameA⟩
      rcases update_files_names (update_sln_lines false)
        (collect fs).sln_files _ fsA hsln eA heA with ⟨e1, he1, hdp1, hname1e⟩
      rcases hname1e fA hfA with ⟨f1, hf1, hname1⟩
      have hpath : e2.dirpath ++ [f2.1] ∈ (collect fs).proj_files := by
        rw [hdpA, hnameA, hdp1, hname1]
        exact F4 e1 he1 f1 hf1 (by rw [← hname1, ← hnameA]; exact hpn)
      rcases update_files_at_paths update_proj_lines (collect fs).proj_files
        fsA fs2 hproj _ hpath e2 he2 f2 hf2 rfl with ⟨c0, hc0⟩
      intro l hl
      rw [hc0] at hl
      exact scc_false_of_mem_update_proj c0 l hl
    -- the second run finds nothing to delete and nothing to change
    have hdd : (collect fs2).del_dirs = [] := collect_del_dirs_eq_nil fs2 H1
    have hdf : (collect fs2).del_files = [] := collect_del_files_eq_nil fs2 H2
    have hdel : delete_entries fs2 (collect fs2).del_dirs
        (collect fs2).del_files = fs2 := by
      rw [hdd, hdf]
      exact delete_entries_nil fs2
    have hsln2 : update_files (update_sln_lines false) fs2
        (collect fs2).sln_files = .ok fs2 := by
      apply update_files_id
      · intro p hp
        rcases (mem_collect_sln_files fs2 p).mp hp with
          ⟨e, he, _, f, hf, _, rfl⟩
        exact hasFile_of_mem fs2 e f he hf
      · intro p hp e he f hf hpeq
        rcases (mem_collect_sln_files fs2 p).mp hp with
          ⟨e0, he0, _, f0, hf0, hsn0, hp0⟩
        have hfn : f.1 = f0.1 := (append_singleton_inj (hpeq.trans hp0.symm)).2
        apply update_sln_lines_id_of_no_open
        exact H5 e he f hf (by rw [hfn]; exact hsn0)
    have hproj2 : update_files update_proj_lines fs2
        (collect fs2).proj_files = .ok fs2 := by
      apply update_files_id
      · intro p hp
        rcases (mem_collect_proj_files fs2 p).mp hp with
          ⟨e, he, _, f, hf, _, rfl⟩
        exact hasFile_of_mem fs2 e f he hf
      · intro p hp e he f hf hpeq
        rcases (mem_collect_proj_files fs2 p).mp hp with
          ⟨e0, he0, _, f0, hf0, hpn0, hp0⟩
        have hfn : f.1 = f0.1 := (append_singleton_inj (hpeq.trans hp0.symm)).2
        apply update_proj_lines_id_of_no_scc
        exact H6 e he f hf (by rw [hfn]; exact hpn0)
    have hunb2 : unbind fs2 = (match update_files (update_sln_lines false)
        (delete_entries fs2 (collect fs2).del_dirs (collect fs2).del_files)
        (collect fs2).sln_files with
      | .error e => (.error e : Except Unit (List DirEnt))
      | .ok fsA2 => update_files update_proj_lines fsA2
          (collect fs2).proj_files) := rfl
    rw [hunb2, hdel, hsln2]
    exact hproj2

/-- Claim C6: the transformation is idempotent — the solution-file
filter applied to its own output changes nothing, the project-file
filter applied to its own output changes nothing, and a destination tree
produced by a successful unbind run is a fixpoint: running the pipeline
again on it succeeds and returns it unchanged (nothing left to delete,
no region or tag line left to strip). -/
theorem claim_C6_idempotent :
    (∀ lines, update_sln_lines false (update_sln_lines false lines) =
      update_sln_lines false lines) ∧
    (∀ lines, update_proj_lines (update_proj_lines lines) =
      update_proj_lines lines) ∧
    (∀ fs fs2, unbind fs = .ok fs2 → unbind fs2 = .ok fs2) :=
  ⟨update_sln_lines_idem, update_proj_lines_idem, unbind_ok_fixpoint⟩

/-- The concrete destination tree used to witness claim C6. -/
def c6FS : List DirEnt :=
  [⟨["dest"],
    [("a.sln", ["x", "GlobalSection(TfsVersionControl)", "mid",
      "EndGlobalSection", "y"]),
     ("b.csproj", ["  <SccProjectName>n</SccProjectName>", "keep"])]⟩]

/-- The result of the first unbind run on c6FS. -/
def c6FS2 : List DirEnt :=
  [⟨["dest"], [("a.sln", ["x", "y"]), ("b.csproj", ["keep"])]⟩]

/-- Witness for claim C6: a first run produces c6FS2 and the second run
on c6FS2 is a no-op. -/
theorem claim_C6_idempotent_witness :
    unbind c6FS = Except.ok c6FS2 ∧ unbind c6FS2 = Except.ok c6FS2 :=
  ⟨rfl, claim_C6_idempotent.2.2 c6FS c6FS2 rfl⟩
